import Mathlib

/-!
Verification development for the broodlist pedigree engine.

The definitions below are shallow embeddings of the Python sources:
`pedigree.py` (namespace `Pedigree`), `src/make_pedigree.py` (namespace
`MakePedigree`) and `src/make_pedigree_image.py` (namespace
`MakePedigreeImage`).  Python dictionaries are modelled as association
lists, mutable sets as lists, floating point percentages as rationals,
and the unbounded Python recursions carry an explicit fuel argument:
every recursion of the source is bounded (by the generation count or the
visiting set), and the fuel-stability lemmas below show the chosen fuel
is irrelevant beyond that bound.
-/

namespace Pedigree

/-- The `Horse` dataclass of `pedigree.py` (lines 8-19). -/
structure Horse where
  key : String
  sire : Option String
  dam : Option String
  sex : String
  color : String
  year : String
  details : String
  url : String
  name : String
  is_placeholder : Bool := false
deriving DecidableEq, Repr

/-- The `PedigreeNode` dataclass of `pedigree.py` (lines 22-29): a binary
ancestry-tree node with optional sire-side and dam-side children and the
layout span fields `row_start`/`row_end` filled in by `assign_rows`. -/
inductive PedigreeNode where
  | mk (horse : Horse) (sire : Option PedigreeNode) (dam : Option PedigreeNode)
       (row_start : Nat) (row_end : Nat) (depth : Nat)
deriving Repr

def PedigreeNode.horse : PedigreeNode → Horse
  | .mk h _ _ _ _ _ => h

def PedigreeNode.sire : PedigreeNode → Option PedigreeNode
  | .mk _ s _ _ _ _ => s

def PedigreeNode.dam : PedigreeNode → Option PedigreeNode
  | .mk _ _ d _ _ _ => d

def PedigreeNode.row_start : PedigreeNode → Nat
  | .mk _ _ _ rs _ _ => rs

def PedigreeNode.row_end : PedigreeNode → Nat
  | .mk _ _ _ _ re _ => re

def PedigreeNode.depth : PedigreeNode → Nat
  | .mk _ _ _ _ _ dep => dep

/-- `UNKNOWN_HORSE` of `pedigree.py` (lines 32-42): the distinguished
unknown-root individual, visibly labeled and not a placeholder. -/
def UNKNOWN_HORSE : Horse :=
  { key := "UNKNOWN", sire := none, dam := none, sex := "", color := "",
    year := "", details := "", url := "", name := "Unknown" }

/-- `placeholder_horse` of `pedigree.py` (lines 45-57). -/
def placeholder_horse : Horse :=
  { key := "", sire := none, dam := none, sex := "", color := "",
    year := "", details := "", url := "", name := "", is_placeholder := true }

/-- The record store `Dict[str, Horse]`, modelled as an association list. -/
def Horses := List (String × Horse)

def Horses.get (horses : Horses) (key : String) : Option Horse :=
  List.lookup key horses

/-- The inner `build_node` of `build_tree` (`pedigree.py` lines 85-98).
The `fuel` argument makes the recursion structural; `build_tree` passes
`generations`, which is never exhausted because the recursion stops as
soon as `depth < generations - 1` fails (see `build_node_fuel_stable`). -/
def build_node (horses : Horses) (generations : Nat) :
    Nat → Horse → Nat → PedigreeNode
  | 0, horse, depth => .mk horse none none 0 0 depth
  | fuel + 1, horse, depth =>
    if depth < generations - 1 then
      let sire_horse :=
        (match horse.sire with
         | some sire_key => horses.get sire_key
         | none => none).getD placeholder_horse
      let dam_horse :=
        (match horse.dam with
         | some dam_key => horses.get dam_key
         | none => none).getD placeholder_horse
      .mk horse (some (build_node horses generations fuel sire_horse (depth + 1)))
        (some (build_node horses generations fuel dam_horse (depth + 1))) 0 0 depth
    else
      .mk horse none none 0 0 depth

/-- `build_tree` of `pedigree.py` (lines 82-100). -/
def build_tree (horses : Horses) (key : String) (generations : Nat) : PedigreeNode :=
  build_node horses generations generations ((horses.get key).getD UNKNOWN_HORSE) 0

/-- `assign_rows` of `pedigree.py` (lines 103-116), returning the tree with
spans assigned together with the advanced leaf index. -/
def assign_rows (generations : Nat) : PedigreeNode → Nat → PedigreeNode × Nat
  | .mk h s d _ _ depth, leaf_index =>
    if generations - 1 ≤ depth ∨ (s.isNone ∧ d.isNone) then
      (.mk h s d leaf_index leaf_index depth, leaf_index + 1)
    else
      match s, d with
      | some sn, some dn =>
        let rs := assign_rows generations sn leaf_index
        let rd := assign_rows generations dn rs.2
        (.mk h (some rs.1) (some rd.1) rs.1.row_start rd.1.row_end depth, rd.2)
      | some sn, none =>
        let rs := assign_rows generations sn leaf_index
        (.mk h (some rs.1) none rs.1.row_start rs.1.row_end depth, rs.2)
      | none, some dn =>
        let rd := assign_rows generations dn leaf_index
        (.mk h none (some rd.1) rd.1.row_start rd.1.row_end depth, rd.2)
      | none, none =>
        (.mk h none none leaf_index leaf_index depth, leaf_index + 1)

/-- All nodes of a tree, the node itself first (pre-order). -/
def PedigreeNode.nodes : PedigreeNode → List PedigreeNode
  | .mk h s d rs re dep =>
    .mk h s d rs re dep ::
      ((match s with
        | some sn => sn.nodes
        | none => []) ++
       (match d with
        | some dn => dn.nodes
        | none => []))

/-- Number of leaves of the subtree (childless nodes count one). -/
def PedigreeNode.leafCount : PedigreeNode → Nat
  | .mk _ none none _ _ _ => 1
  | .mk _ (some sn) none _ _ _ => sn.leafCount
  | .mk _ none (some dn) _ _ _ => dn.leafCount
  | .mk _ (some sn) (some dn) _ _ _ => sn.leafCount + dn.leafCount

/-- Shape invariant of trees produced by `build_tree`: below the
generation bound every node has both children one generation deeper, and
at the bound every node is a leaf. -/
def wellShaped (generations : Nat) : PedigreeNode → Bool
  | .mk _ none none _ _ dep => !(decide (dep < generations - 1))
  | .mk _ (some sn) (some dn) _ _ dep =>
    decide (dep < generations - 1) && (sn.depth == dep + 1) && (dn.depth == dep + 1) &&
      wellShaped generations sn && wellShaped generations dn
  | .mk _ (some _) none _ _ _ => false
  | .mk _ none (some _) _ _ _ => false

/-- Span consistency of a single node after layout assignment: the span
length equals the subtree leaf count, leaves span one unit, and an
internal node's span is the gap-free union of the sire-side span
immediately followed by the dam-side span. -/
def nodeSpanOK : PedigreeNode → Bool
  | .mk _ none none rs re _ => re == rs
  | .mk _ (some sn) (some dn) rs re _ =>
    (re + 1 - rs == sn.leafCount + dn.leafCount) && (rs == sn.row_start) &&
      (sn.row_end + 1 == dn.row_start) && (re == dn.row_end)
  | .mk _ (some _) none _ _ _ => false
  | .mk _ none (some _) _ _ _ => false

/-- Induction over pedigree trees through the optional children. -/
theorem PedigreeNode.ind (P : PedigreeNode → Prop)
    (h : ∀ ho s d rs re dep,
      (∀ sn, s = some sn → P sn) → (∀ dn, d = some dn → P dn) →
      P (.mk ho s d rs re dep)) : ∀ t, P t
  | .mk ho none none rs re dep =>
    h ho none none rs re dep (fun _ hx => by cases hx) (fun _ hx => by cases hx)
  | .mk ho (some sn) none rs re dep =>
    h ho (some sn) none rs re dep
      (fun x hx => by cases hx; exact PedigreeNode.ind P h sn)
      (fun _ hx => by cases hx)
  | .mk ho none (some dn) rs re dep =>
    h ho none (some dn) rs re dep
      (fun _ hx => by cases hx)
      (fun x hx => by cases hx; exact PedigreeNode.ind P h dn)
  | .mk ho (some sn) (some dn) rs re dep =>
    h ho (some sn) (some dn) rs re dep
      (fun x hx => by cases hx; exact PedigreeNode.ind P h sn)
      (fun x hx => by cases hx; exact PedigreeNode.ind P h dn)

/-- The builder's recursion is bounded by the generation count: any fuel at
least `generations - 1 - depth` gives the same tree. -/
theorem build_node_fuel_stable (horses : Horses) (G : Nat) :
    ∀ f₁ f₂ horse depth, G - 1 - depth ≤ f₁ → G - 1 - depth ≤ f₂ →
      build_node horses G f₁ horse depth = build_node horses G f₂ horse depth := by
  intro f₁
  induction f₁ with
  | zero =>
    intro f₂ horse depth h1 h2
    cases f₂ with
    | zero => rfl
    | succ b =>
      show _ = build_node horses G (b + 1) horse depth
      simp only [build_node]
      rw [if_neg (by omega : ¬ depth < G - 1)]
  | succ a ih =>
    intro f₂ horse depth h1 h2
    cases f₂ with
    | zero =>
      show build_node horses G (a + 1) horse depth = _
      simp only [build_node]
      rw [if_neg (by omega : ¬ depth < G - 1)]
    | succ b =>
      show build_node horses G (a + 1) horse depth = build_node horses G (b + 1) horse depth
      simp only [build_node]
      by_cases hd : depth < G - 1
      · rw [if_pos hd, if_pos hd,
          ih b _ (depth + 1) (by omega) (by omega),
          ih b _ (depth + 1) (by omega) (by omega)]
      · rw [if_neg hd, if_neg hd]

/-- With adequate fuel, `build_node` records the requested depth and
produces a well-shaped subtree. -/
theorem build_node_wellShaped (horses : Horses) (G : Nat) :
    ∀ f depth, G - 1 - depth ≤ f → ∀ horse,
      (build_node horses G f horse depth).depth = depth ∧
      wellShaped G (build_node horses G f horse depth) = true := by
  intro f
  induction f with
  | zero =>
    intro depth h1 horse
    refine ⟨rfl, ?_⟩
    simp only [build_node, wellShaped, Bool.not_eq_true', decide_eq_false_iff_not]
    omega
  | succ a ih =>
    intro depth h1 horse
    simp only [build_node]
    by_cases hd : depth < G - 1
    · rw [if_pos hd]
      refine ⟨rfl, ?_⟩
      have ihdep : ∀ h' : Horse, (build_node horses G a h' (depth + 1)).depth = depth + 1 :=
        fun h' => (ih (depth + 1) (by omega) h').1
      have ihws : ∀ h' : Horse, wellShaped G (build_node horses G a h' (depth + 1)) = true :=
        fun h' => (ih (depth + 1) (by omega) h').2
      simp only [wellShaped, ihdep, ihws, beq_self_eq_true, Bool.and_self, Bool.and_true,
        decide_eq_true_eq]
      exact hd
    · rw [if_neg hd]
      refine ⟨rfl, ?_⟩
      simp only [wellShaped, Bool.not_eq_true', decide_eq_false_iff_not]
      omega

/-- A well-shaped subtree at depth `d` has exactly `2 ^ (G - 1 - d)` leaves. -/
theorem wellShaped_leafCount (G : Nat) :
    ∀ t, wellShaped G t = true → t.leafCount = 2 ^ (G - 1 - t.depth) := by
  refine PedigreeNode.ind _ ?_
  intro ho s d rs re dep ihs ihd hw
  cases s with
  | none =>
    cases d with
    | none =>
      simp only [wellShaped, Bool.not_eq_true', decide_eq_false_iff_not] at hw
      show 1 = _
      simp only [PedigreeNode.depth]
      have : G - 1 - dep = 0 := by omega
      rw [this, pow_zero]
    | some dn =>
      simp only [wellShaped] at hw
      exact (Bool.false_ne_true hw).elim
  | some sn =>
    cases d with
    | none =>
      simp only [wellShaped] at hw
      exact (Bool.false_ne_true hw).elim
    | some dn =>
      simp only [wellShaped, Bool.and_eq_true, beq_iff_eq, decide_eq_true_eq] at hw
      obtain ⟨⟨⟨⟨hdep, hsd⟩, hdd⟩, hsw⟩, hdw⟩ := hw
      have h1 := ihs sn rfl hsw
      have h2 := ihd dn rfl hdw
      show sn.leafCount + dn.leafCount = _
      simp only [PedigreeNode.depth]
      rw [h1, h2, hsd, hdd]
      have h3 : G - 1 - dep = (G - 1 - (dep + 1)) + 1 := by omega
      rw [h3, pow_succ]
      omega

/-- Every node of a well-shaped tree is itself well shaped. -/
theorem wellShaped_nodes (G : Nat) :
    ∀ t, wellShaped G t = true → ∀ n ∈ t.nodes, wellShaped G n = true := by
  refine PedigreeNode.ind _ ?_
  intro ho s d rs re dep ihs ihd hw n hn
  cases s with
  | none =>
    cases d with
    | none =>
      simp only [PedigreeNode.nodes, List.append_nil, List.mem_singleton] at hn
      subst hn
      exact hw
    | some dn =>
      simp only [wellShaped] at hw
      exact (Bool.false_ne_true hw).elim
  | some sn =>
    cases d with
    | none =>
      simp only [wellShaped] at hw
      exact (Bool.false_ne_true hw).elim
    | some dn =>
      have hw' := hw
      simp only [wellShaped, Bool.and_eq_true] at hw'
      obtain ⟨⟨⟨⟨_, _⟩, _⟩, hsw⟩, hdw⟩ := hw'
      simp only [PedigreeNode.nodes, List.mem_cons, List.mem_append] at hn
      rcases hn with hn | hn | hn
      · subst hn; exact hw
      · exact ihs sn rfl hsw n hn
      · exact ihd dn rfl hdw n hn

/-- A well-shaped node at the generation bound is a leaf. -/
theorem wellShaped_at_bound (G : Nat) (t : PedigreeNode)
    (hw : wellShaped G t = true) (hd : ¬ t.depth < G - 1) :
    t.sire = none ∧ t.dam = none := by
  obtain ⟨ho, s, d, rs, re, dep⟩ := t
  cases s with
  | none =>
    cases d with
    | none => exact ⟨rfl, rfl⟩
    | some dn => exact (Bool.false_ne_true hw).elim
  | some sn =>
    cases d with
    | none => exact (Bool.false_ne_true hw).elim
    | some dn =>
      simp only [wellShaped, Bool.and_eq_true, decide_eq_true_eq] at hw
      exact (hd hw.1.1.1.1).elim

/-- A well-shaped node strictly below the generation bound has both a
sire-side and a dam-side child. -/
theorem wellShaped_below_bound (G : Nat) (t : PedigreeNode)
    (hw : wellShaped G t = true) (hd : t.depth < G - 1) :
    t.sire.isSome = true ∧ t.dam.isSome = true := by
  obtain ⟨ho, s, d, rs, re, dep⟩ := t
  cases s with
  | none =>
    cases d with
    | none =>
      simp only [wellShaped, Bool.not_eq_true', decide_eq_false_iff_not] at hw
      exact (hw hd).elim
    | some dn => exact (Bool.false_ne_true hw).elim
  | some sn =>
    cases d with
    | none => exact (Bool.false_ne_true hw).elim
    | some dn => exact ⟨rfl, rfl⟩

/-- Depth of every node of a built tree stays within the generation bound. -/
theorem build_node_nodes_depth (horses : Horses) (G : Nat) :
    ∀ f depth, depth ≤ G - 1 → ∀ horse n,
      n ∈ (build_node horses G f horse depth).nodes → n.depth ≤ G - 1 := by
  intro f
  induction f with
  | zero =>
    intro depth h1 horse n hn
    simp only [build_node, PedigreeNode.nodes, List.append_nil, List.mem_singleton] at hn
    subst hn
    exact h1
  | succ a ih =>
    intro depth h1 horse n hn
    simp only [build_node] at hn
    by_cases hd : depth < G - 1
    · rw [if_pos hd] at hn
      simp only [PedigreeNode.nodes, List.mem_cons, List.mem_append] at hn
      rcases hn with hn | hn | hn
      · subst hn; exact h1
      · exact ih (depth + 1) (by omega) _ n hn
      · exact ih (depth + 1) (by omega) _ n hn
    · rw [if_neg hd] at hn
      simp only [PedigreeNode.nodes, List.append_nil, List.mem_singleton] at hn
      subst hn
      exact h1

/-- The layout assigner on a well-shaped subtree: starting at leaf index
`i` it consumes exactly `leafCount` indices, assigns the contiguous span
`i .. i + leafCount - 1`, preserves the leaf count, and every node of the
result satisfies `nodeSpanOK`. -/
theorem assign_rows_spans (G : Nat) :
    ∀ t, wellShaped G t = true → ∀ i,
      (assign_rows G t i).2 = i + t.leafCount ∧
      (assign_rows G t i).1.row_start = i ∧
      (assign_rows G t i).1.row_end + 1 = i + t.leafCount ∧
      (assign_rows G t i).1.leafCount = t.leafCount ∧
      (∀ n ∈ (assign_rows G t i).1.nodes, nodeSpanOK n = true) := by
  refine PedigreeNode.ind _ ?_
  intro ho s d rs re dep ihs ihd hw i
  cases s with
  | none =>
    cases d with
    | none =>
      simp only [wellShaped, Bool.not_eq_true', decide_eq_false_iff_not] at hw
      have hguard : G - 1 ≤ dep ∨ ((none : Option PedigreeNode).isNone ∧
          (none : Option PedigreeNode).isNone) := Or.inr ⟨rfl, rfl⟩
      simp only [assign_rows, if_pos hguard]
      refine ⟨rfl, rfl, rfl, rfl, ?_⟩
      intro n hn
      simp only [PedigreeNode.nodes, List.append_nil, List.mem_singleton] at hn
      subst hn
      simp [nodeSpanOK]
    | some dn => exact (Bool.false_ne_true hw).elim
  | some sn =>
    cases d with
    | none => exact (Bool.false_ne_true hw).elim
    | some dn =>
      have hw' := hw
      simp only [wellShaped, Bool.and_eq_true, decide_eq_true_eq] at hw'
      obtain ⟨⟨⟨⟨hdG, hsd⟩, hdd⟩, hsw⟩, hdw⟩ := hw'
      have hguard : ¬ (G - 1 ≤ dep ∨ ((some sn).isNone ∧ (some dn).isNone)) := by
        simp only [Option.isNone_some, Bool.false_eq_true, false_and, or_false]
        omega
      simp only [assign_rows, if_neg hguard]
      obtain ⟨hs2, hsrs, hsre, hslc, hsok⟩ := ihs sn rfl hsw i
      obtain ⟨hd2, hdrs, hdre, hdlc, hdok⟩ :=
        ihd dn rfl hdw (assign_rows G sn i).2
      have hlc : (PedigreeNode.mk ho (some sn) (some dn) rs re dep).leafCount =
          sn.leafCount + dn.leafCount := rfl
      refine ⟨?_, ?_, ?_, ?_, ?_⟩
      · show (assign_rows G dn (assign_rows G sn i).2).2 = _
        rw [hd2, hs2, hlc]
        omega
      · exact hsrs
      · show (assign_rows G dn (assign_rows G sn i).2).1.row_end + 1 = _
        rw [hdre, hs2, hlc]
        omega
      · show (assign_rows G sn i).1.leafCount +
            (assign_rows G dn (assign_rows G sn i).2).1.leafCount = _
        rw [hslc, hdlc, hlc]
      · intro n hn
        simp only [PedigreeNode.nodes, List.mem_cons, List.mem_append] at hn
        rcases hn with hn | hn | hn
        · subst hn
          simp only [nodeSpanOK, Bool.and_eq_true, beq_iff_eq, and_true, true_and]
          omega
        · exact hsok n hn
        · exact hdok n hn

end Pedigree

/-- Insertion into a descending-sorted list of naturals. -/
def insertDesc (x : Nat) : List Nat → List Nat
  | [] => [x]
  | y :: ys => if y < x then x :: y :: ys else y :: insertDesc x ys

/-- `sorted(gens, reverse=True)` of Python: the list sorted in descending
order (on naturals the output is determined by the multiset alone). -/
def sortDesc : List Nat → List Nat
  | [] => []
  | x :: xs => insertDesc x (sortDesc xs)

namespace MakePedigree

/-- A CSV row of `bloodline.csv` as accessed by `make_pedigree.py`.  Only
the lineage fields feed the analysis core (display fields are rendering
concerns, excluded by the spec); a field holds the stripped cell text and
the empty string means the link is absent, matching the Python truthiness
checks `if sire:` on the stripped values. -/
structure Row where
  sire : String
  dam : String
deriving DecidableEq, Repr

/-- The `by_pk` mapping built by `load_rows`, as an association list. -/
def Store := List (String × Row)

def Store.get (by_pk : Store) (pk : String) : Option Row :=
  List.lookup pk by_pk

/-- One recorded occurrence inside `collect_inbreeding` (`make_pedigree.py`
line 94): the visited identifier with its generation and the full path from
the branch root.  Python groups occurrences in a dict keyed by identifier;
here they form one flat list in visit order and `occsFor` recovers a key's
group, preserving the per-key order. -/
structure Occ where
  pk : String
  gen : Nat
  path : List String
deriving DecidableEq, Repr

/-- The recursive `walk` of `collect_inbreeding` (`make_pedigree.py` lines
87-106).  `visiting` is the per-path set, `occurrences` the accumulator;
`fuel` makes the recursion structural and is irrelevant beyond the
generation bound (`walk_fuel_stable`). -/
def walk (by_pk : Store) (max_depth : Nat) :
    Nat → String → Nat → List String → List String → List Occ → List Occ
  | 0, _, _, _, _, occurrences => occurrences
  | fuel + 1, node_pk, gen, path, visiting, occurrences =>
    if max_depth < gen then occurrences
    else if node_pk ∈ visiting then occurrences
    else
      let new_path := path ++ [node_pk]
      let occurrences := occurrences ++ [⟨node_pk, gen, new_path⟩]
      match by_pk.get node_pk with
      | none => occurrences
      | some data =>
        if gen < max_depth then
          let occurrences :=
            if data.sire ≠ "" then
              walk by_pk max_depth fuel data.sire (gen + 1) new_path
                (node_pk :: visiting) occurrences
            else occurrences
          if data.dam ≠ "" then
            walk by_pk max_depth fuel data.dam (gen + 1) new_path
              (node_pk :: visiting) occurrences
          else occurrences
        else occurrences

/-- The occurrence recording of `collect_inbreeding` (lines 108-115): walk
the sire branch, then the dam branch, of the subject's record. -/
def occurrences_of (pk : String) (by_pk : Store) (max_depth : Nat) : List Occ :=
  match by_pk.get pk with
  | none => []
  | some data =>
    let acc :=
      if data.sire ≠ "" then
        walk by_pk max_depth (max_depth + 1) data.sire 1 [] [] []
      else []
    if data.dam ≠ "" then
      walk by_pk max_depth (max_depth + 1) data.dam 1 [] [] acc
    else acc

/-- The occurrence group of one identifier (the value list of the Python
`occurrences` dict). -/
def occsFor (occurrences : List Occ) (a : String) : List Occ :=
  occurrences.filter (fun o => o.pk == a)

/-- Iteration order of the Python `occurrences` dict: identifiers in order
of first insertion. -/
def dictKeys (occurrences : List Occ) : List String :=
  occurrences.foldl (fun ks o => if o.pk ∈ ks then ks else ks ++ [o.pk]) []

/-- The per-ancestor record stored in the `inbred` dict (lines 121-125);
the float percentage is modelled as a rational. -/
structure Entry where
  gens : List Nat
  percentage : ℚ
  paths : List (List String)
deriving DecidableEq, Repr

/-- The `inbred[ancestor]` value (lines 121-125): generations sorted in
descending order, `percentage = sum(0.5 ** g for g in gens) * 100`, and the
recorded paths. -/
def entryFor (occurrences : List Occ) (a : String) : Entry :=
  let gens := (occsFor occurrences a).map (fun o => o.gen)
  { gens := sortDesc gens
    percentage := (gens.map (fun g => ((1 : ℚ) / 2) ^ g)).sum * 100
    paths := (occsFor occurrences a).map (fun o => o.path) }

/-- The `inbred` dict (lines 117-125): ancestors with at least two
recorded occurrences, each mapped to its entry. -/
def inbred_list (occurrences : List Occ) : List (String × Entry) :=
  (dictKeys occurrences).filterMap
    (fun a => if 2 ≤ (occsFor occurrences a).length
      then some (a, entryFor occurrences a) else none)

/-- The `candidates` list of the subsumption loop (line 128). -/
def candidates (occurrences : List Occ) : List String :=
  (inbred_list occurrences).map (fun e => e.1)

/-- The containment test of the subsumption loop (lines 133-140): every
recorded path of `a` contains `b` at or before the position of `a`. -/
def subsumes_all (occurrences : List Occ) (b a : String) : Bool :=
  (entryFor occurrences a).paths.all
    (fun p => p.contains b && decide (p.indexOf b ≤ p.indexOf a))

/-- The `subsumed` set (lines 127-143). -/
def subsumed_list (occurrences : List Occ) : List String :=
  (candidates occurrences).filter
    (fun a => (candidates occurrences).any
      (fun b => (b != a) && subsumes_all occurrences b a))

/-- `collect_inbreeding` (lines 84-145): the full inbreeding map and the
subsumed set. -/
def collect_inbreeding (pk : String) (by_pk : Store) (max_depth : Nat) :
    List (String × Entry) × List String :=
  (inbred_list (occurrences_of pk by_pk max_depth),
   subsumed_list (occurrences_of pk by_pk max_depth))

/-- The final non-subsumed report `inbred_pks` of `write_excel` (lines
179-180): the full map's keys minus the subsumed set. -/
def inbred_pks (occurrences : List Occ) : List String :=
  (candidates occurrences).filter
    (fun a => !(subsumed_list occurrences).contains a)

/-- Traversal state of `compute_max_depth`: the memo dict and the per-path
visiting set. -/
structure DState where
  memo : List (String × Nat)
  visiting : List String
deriving DecidableEq, Repr

/-- The inner `depth_for` of `compute_max_depth` (`make_pedigree.py` lines
24-45), threading the memo and the visiting set.  `fuel` bounds the
recursion; `compute_max_depth` passes `by_pk.length + 2`, enough because
every open call below the first holds a distinct store key in `visiting`. -/
def depth_for (by_pk : Store) : Nat → String → DState → Nat × DState
  | 0, _, st => (0, st)
  | fuel + 1, node_pk, st =>
    match st.memo.lookup node_pk with
    | some d => (d, st)
    | none =>
      if node_pk ∈ st.visiting then (0, st)
      else
        let visiting1 := node_pk :: st.visiting
        match by_pk.get node_pk with
        | none => (0, ⟨(node_pk, 0) :: st.memo, visiting1.erase node_pk⟩)
        | some data =>
          let r1 :=
            if data.sire ≠ "" then
              let r := depth_for by_pk fuel data.sire ⟨st.memo, visiting1⟩
              (([0, 1 + r.1] : List Nat), r.2)
            else (([0] : List Nat), (⟨st.memo, visiting1⟩ : DState))
          let r2 :=
            if data.dam ≠ "" then
              let r := depth_for by_pk fuel data.dam r1.2
              (r1.1 ++ [1 + r.1], r.2)
            else r1
          let maxd := r2.1.foldl Nat.max 0
          (maxd, ⟨(node_pk, maxd) :: r2.2.memo, r2.2.visiting.erase node_pk⟩)

/-- `compute_max_depth` (lines 20-47). -/
def compute_max_depth (pk : String) (by_pk : Store) : Nat :=
  (depth_for by_pk (by_pk.length + 2) pk ⟨[], []⟩).1

/-- `clamp_depth` (lines 50-54) for a caller-supplied requested depth. -/
def clamp_depth (pk : String) (by_pk : Store) (requested_depth : Option Nat) : Nat :=
  match requested_depth with
  | none => compute_max_depth pk by_pk
  | some r => max 0 (min (compute_max_depth pk by_pk) r)

/-- Modelled from the spec (4.1) and claim C7, for comparison with the
implemented `compute_max_depth`: the pure visiting-path recursion with no
memoization.  A missing record reports depth 0, an identifier already on
the current visiting path is treated as depth 0 from that point, an absent
parent link contributes nothing, and the result is
`max(0, 1 + depth(sire), 1 + depth(dam))`. -/
def depth_of_claim (by_pk : Store) : Nat → String → List String → Nat
  | 0, _, _ => 0
  | fuel + 1, node_pk, visiting =>
    if node_pk ∈ visiting then 0
    else
      match by_pk.get node_pk with
      | none => 0
      | some data =>
        let ds :=
          if data.sire ≠ "" then
            1 + depth_of_claim by_pk fuel data.sire (node_pk :: visiting)
          else 0
        let dd :=
          if data.dam ≠ "" then
            1 + depth_of_claim by_pk fuel data.dam (node_pk :: visiting)
          else 0
        max 0 (max ds dd)

/-- The claim's reading of the Depth Resolver applied from the top. -/
def max_depth_of_claim (pk : String) (by_pk : Store) : Nat :=
  depth_of_claim by_pk (by_pk.length + 2) pk []

end MakePedigree

namespace MakePedigreeImage

/-- A CSV row as accessed by `make_pedigree_image.py`; identical lineage
access pattern to `make_pedigree.py` (stripped text, empty string for an
absent link). -/
structure Row where
  sire : String
  dam : String
deriving DecidableEq, Repr

/-- The `by_pk` mapping built by `load_rows`, as an association list. -/
def Store := List (String × Row)

def Store.get (by_pk : Store) (pk : String) : Option Row :=
  List.lookup pk by_pk

/-- One recorded occurrence of `collect_inbreeding`
(`make_pedigree_image.py` lines 102-104): identifier, generation, full
path from the branch root, and the top-level branch side label. -/
structure Occ where
  pk : String
  gen : Nat
  path : List String
  side : String
deriving DecidableEq, Repr

/-- The recursive `walk` of `collect_inbreeding`
(`make_pedigree_image.py` lines 95-116), carrying the branch side. -/
def walk (by_pk : Store) (max_depth : Nat) :
    Nat → String → Nat → List String → List String → String → List Occ → List Occ
  | 0, _, _, _, _, _, occurrences => occurrences
  | fuel + 1, node_pk, gen, path, visiting, side, occurrences =>
    if max_depth < gen then occurrences
    else if node_pk ∈ visiting then occurrences
    else
      let new_path := path ++ [node_pk]
      let occurrences := occurrences ++ [⟨node_pk, gen, new_path, side⟩]
      match by_pk.get node_pk with
      | none => occurrences
      | some data =>
        if gen < max_depth then
          let occurrences :=
            if data.sire ≠ "" then
              walk by_pk max_depth fuel data.sire (gen + 1) new_path
                (node_pk :: visiting) side occurrences
            else occurrences
          if data.dam ≠ "" then
            walk by_pk max_depth fuel data.dam (gen + 1) new_path
              (node_pk :: visiting) side occurrences
          else occurrences
        else occurrences

/-- The occurrence recording of `collect_inbreeding` (lines 118-125):
walk the sire branch with side label `"Sire"`, then the dam branch with
side label `"Dam"`. -/
def occurrences_of (pk : String) (by_pk : Store) (max_depth : Nat) : List Occ :=
  match by_pk.get pk with
  | none => []
  | some data =>
    let acc :=
      if data.sire ≠ "" then
        walk by_pk max_depth (max_depth + 1) data.sire 1 [] [] ("Sire") []
      else []
    if data.dam ≠ "" then
      walk by_pk max_depth (max_depth + 1) data.dam 1 [] [] ("Dam") acc
    else acc

/-- The occurrence group of one identifier. -/
def occsFor (occurrences : List Occ) (a : String) : List Occ :=
  occurrences.filter (fun o => o.pk == a)

/-- Iteration order of the Python `occurrences` dict. -/
def dictKeys (occurrences : List Occ) : List String :=
  occurrences.foldl (fun ks o => if o.pk ∈ ks then ks else ks ++ [o.pk]) []

/-- The per-ancestor record of the `inbred` dict (lines 132-137). -/
structure Entry where
  gens : List Nat
  percentage : ℚ
  paths : List (List String)
deriving DecidableEq, Repr

/-- The `inbred[ancestor]` value (lines 132-137). -/
def entryFor (occurrences : List Occ) (a : String) : Entry :=
  let gens := (occsFor occurrences a).map (fun o => o.gen)
  { gens := sortDesc gens
    percentage := (gens.map (fun g => ((1 : ℚ) / 2) ^ g)).sum * 100
    paths := (occsFor occurrences a).map (fun o => o.path) }

/-- The branch classification stored in `inbred_types` (lines 136-143):
`"sire"` when every occurrence came through the sire branch, `"dam"` when
every occurrence came through the dam branch, otherwise `"both"`. -/
def branch_of (occurrences : List Occ) (a : String) : String :=
  let sides := (occsFor occurrences a).map (fun o => o.side)
  if sides.all (fun s => s == "Sire") then "sire"
  else if sides.all (fun s => s == "Dam") then "dam"
  else "both"

/-- The `inbred` dict (lines 127-137). -/
def inbred_list (occurrences : List Occ) : List (String × Entry) :=
  (dictKeys occurrences).filterMap
    (fun a => if 2 ≤ (occsFor occurrences a).length
      then some (a, entryFor occurrences a) else none)

/-- The `inbred_types` dict (lines 128-143). -/
def inbred_types_list (occurrences : List Occ) : List (String × String) :=
  (dictKeys occurrences).filterMap
    (fun a => if 2 ≤ (occsFor occurrences a).length
      then some (a, branch_of occurrences a) else none)

/-- The `candidates` list of the subsumption loop (line 146). -/
def candidates (occurrences : List Occ) : List String :=
  (inbred_list occurrences).map (fun e => e.1)

/-- The containment test of the subsumption loop (lines 151-158). -/
def subsumes_all (occurrences : List Occ) (b a : String) : Bool :=
  (entryFor occurrences a).paths.all
    (fun p => p.contains b && decide (p.indexOf b ≤ p.indexOf a))

/-- The `subsumed` set (lines 145-161). -/
def subsumed_list (occurrences : List Occ) : List String :=
  (candidates occurrences).filter
    (fun a => (candidates occurrences).any
      (fun b => (b != a) && subsumes_all occurrences b a))

/-- `collect_inbreeding` (lines 92-163): full map, subsumed set, branch
classification. -/
def collect_inbreeding (pk : String) (by_pk : Store) (max_depth : Nat) :
    List (String × Entry) × List String × List (String × String) :=
  (inbred_list (occurrences_of pk by_pk max_depth),
   subsumed_list (occurrences_of pk by_pk max_depth),
   inbred_types_list (occurrences_of pk by_pk max_depth))

end MakePedigreeImage

/-- Lookup in an association list built by keeping exactly the keys
satisfying a condition. -/
theorem lookup_filterMap_ite {β : Type} (e : String → β) (c : String → Prop)
    [DecidablePred c] :
    ∀ (ks : List String) (a : String),
      (ks.filterMap (fun k => if c k then some (k, e k) else none)).lookup a =
        if a ∈ ks ∧ c a then some (e a) else none := by
  intro ks
  induction ks with
  | nil => intro a; simp
  | cons k rest ih =>
    intro a
    rw [List.filterMap_cons]
    by_cases hc : c k
    · rw [if_pos hc]
      by_cases ha : a = k
      · subst ha
        simp only [List.lookup_cons, beq_self_eq_true]
        rw [if_pos ⟨List.mem_cons_self a rest, hc⟩]
      · simp only [List.lookup_cons, beq_eq_false_iff_ne.mpr ha]
        rw [ih]
        by_cases hca : c a
        · by_cases hm : a ∈ rest
          · rw [if_pos ⟨hm, hca⟩, if_pos ⟨List.mem_cons_of_mem k hm, hca⟩]
          · rw [if_neg (fun h => hm h.1), if_neg ?_]
            rintro ⟨hmem, _⟩
            rcases List.mem_cons.mp hmem with rfl | hmem
            · exact ha rfl
            · exact hm hmem
        · rw [if_neg (fun h => hca h.2), if_neg (fun h => hca h.2)]
    · rw [if_neg hc, ih]
      by_cases hca : c a
      · by_cases ha : a = k
        · subst ha
          rw [if_neg (fun h => hc h.2), if_neg ?_]
          · rintro ⟨hm, _⟩
            exact hc hca
        · by_cases hm : a ∈ rest
          · rw [if_pos ⟨hm, hca⟩, if_pos ⟨List.mem_cons_of_mem k hm, hca⟩]
          · rw [if_neg (fun h => hm h.1), if_neg ?_]
            rintro ⟨hmem, _⟩
            rcases List.mem_cons.mp hmem with rfl | hmem
            · exact ha rfl
            · exact hm hmem
      · rw [if_neg (fun h => hca h.2), if_neg (fun h => hca h.2)]

/-- The keys of such a filtered association list. -/
theorem map_fst_filterMap_ite {β : Type} (e : String → β) (c : String → Prop)
    [DecidablePred c] :
    ∀ ks : List String,
      (ks.filterMap (fun k => if c k then some (k, e k) else none)).map Prod.fst =
        ks.filter (fun k => decide (c k)) := by
  intro ks
  induction ks with
  | nil => rfl
  | cons k rest ih =>
    rw [List.filterMap_cons, List.filter_cons]
    by_cases hc : c k
    · rw [if_pos hc, if_pos (by simpa using hc)]
      simpa using ih
    · rw [if_neg hc, if_neg (by simpa using hc)]
      exact ih

namespace MakePedigree

/-- Membership in the accumulator of the `dictKeys` fold. -/
theorem mem_dictKeys_go :
    ∀ (l : List Occ) (ks : List String) (a : String),
      a ∈ l.foldl (fun ks o => if o.pk ∈ ks then ks else ks ++ [o.pk]) ks ↔
        a ∈ ks ∨ ∃ o ∈ l, o.pk = a := by
  intro l
  induction l with
  | nil => intro ks a; simp
  | cons o rest ih =>
    intro ks a
    rw [List.foldl_cons, ih]
    by_cases h : o.pk ∈ ks
    · rw [if_pos h]
      constructor
      · rintro (hk | ⟨o', ho', rfl⟩)
        · exact Or.inl hk
        · exact Or.inr ⟨o', List.mem_cons_of_mem o ho', rfl⟩
      · rintro (hk | ⟨o', ho', rfl⟩)
        · exact Or.inl hk
        · rcases List.mem_cons.mp ho' with rfl | ho''
          · exact Or.inl h
          · exact Or.inr ⟨o', ho'', rfl⟩
    · rw [if_neg h]
      constructor
      · rintro (hk | ⟨o', ho', rfl⟩)
        · rcases List.mem_append.mp hk with hk | hk
          · exact Or.inl hk
          · rcases List.mem_singleton.mp hk with rfl
            exact Or.inr ⟨o, List.mem_cons_self o rest, rfl⟩
        · exact Or.inr ⟨o', List.mem_cons_of_mem o ho', rfl⟩
      · rintro (hk | ⟨o', ho', rfl⟩)
        · exact Or.inl (List.mem_append_left _ hk)
        · rcases List.mem_cons.mp ho' with rfl | ho''
          · exact Or.inl (List.mem_append_right _ (List.mem_singleton.mpr rfl))
          · exact Or.inr ⟨o', ho'', rfl⟩

/-- An identifier is a key of the occurrence dict exactly when it was
recorded at least once. -/
theorem mem_dictKeys (occurrences : List Occ) (a : String) :
    a ∈ dictKeys occurrences ↔ ∃ o ∈ occurrences, o.pk = a := by
  rw [dictKeys]
  simpa using mem_dictKeys_go occurrences [] a

/-- A nonempty occurrence group means the identifier was recorded. -/
theorem occsFor_pos (occurrences : List Occ) (a : String) :
    1 ≤ (occsFor occurrences a).length ↔ ∃ o ∈ occurrences, o.pk = a := by
  rw [occsFor]
  constructor
  · intro h
    have hne : occurrences.filter (fun o => o.pk == a) ≠ [] := by
      intro hnil
      rw [hnil] at h
      simp at h
    obtain ⟨o, ho⟩ := List.exists_mem_of_ne_nil _ hne
    have := List.mem_filter.mp ho
    exact ⟨o, this.1, by simpa using this.2⟩
  · rintro ⟨o, ho, rfl⟩
    have : o ∈ occurrences.filter (fun o' => o'.pk == o.pk) :=
      List.mem_filter.mpr ⟨ho, by simp⟩
    have := List.length_pos.mpr (List.ne_nil_of_mem this)
    omega

/-- The full inbreeding map looked up at one identifier. -/
theorem lookup_inbred_list (occurrences : List Occ) (a : String) :
    (inbred_list occurrences).lookup a =
      if a ∈ dictKeys occurrences ∧ 2 ≤ (occsFor occurrences a).length
      then some (entryFor occurrences a) else none := by
  rw [inbred_list]
  exact lookup_filterMap_ite (entryFor occurrences)
    (fun k => 2 ≤ (occsFor occurrences k).length) (dictKeys occurrences) a

/-- The candidate list is the key list of the full map. -/
theorem candidates_eq_filter (occurrences : List Occ) :
    candidates occurrences =
      (dictKeys occurrences).filter
        (fun a => decide (2 ≤ (occsFor occurrences a).length)) := by
  rw [candidates, inbred_list]
  exact map_fst_filterMap_ite (entryFor occurrences)
    (fun k => 2 ≤ (occsFor occurrences k).length) (dictKeys occurrences)

/-- Membership in the candidate list: recorded at least twice. -/
theorem mem_candidates (occurrences : List Occ) (a : String) :
    a ∈ candidates occurrences ↔ 2 ≤ (occsFor occurrences a).length := by
  rw [candidates_eq_filter, List.mem_filter]
  constructor
  · rintro ⟨-, h⟩
    simpa using h
  · intro h
    refine ⟨?_, by simpa using h⟩
    rw [mem_dictKeys]
    exact (occsFor_pos occurrences a).mp (by omega)

/-- A walk call past the generation bound records nothing. -/
theorem walk_gt (by_pk : Store) (maxd : Nat) (f : Nat) (node : String) (gen : Nat)
    (path visiting : List String) (acc : List Occ) (h : maxd < gen) :
    walk by_pk maxd f node gen path visiting acc = acc := by
  cases f with
  | zero => rfl
  | succ a => simp only [walk, if_pos h]

/-- The per-path visiting set refuses to re-enter an identifier already on
the current path: such a call records nothing. -/
theorem walk_visiting (by_pk : Store) (maxd : Nat) (f : Nat) (node : String) (gen : Nat)
    (path visiting : List String) (acc : List Occ) (h : node ∈ visiting) :
    walk by_pk maxd f node gen path visiting acc = acc := by
  cases f with
  | zero => rfl
  | succ a =>
    simp only [walk]
    by_cases hg : maxd < gen
    · rw [if_pos hg]
    · rw [if_neg hg, if_pos h]

/-- The walk recursion is bounded by the generation bound: any fuel of at
least `max_depth + 1 - gen` gives the same occurrence list. -/
theorem walk_fuel_stable (by_pk : Store) (maxd : Nat) :
    ∀ f₁ f₂ node gen path visiting acc,
      maxd + 1 - gen ≤ f₁ → maxd + 1 - gen ≤ f₂ →
      walk by_pk maxd f₁ node gen path visiting acc =
        walk by_pk maxd f₂ node gen path visiting acc := by
  intro f₁
  induction f₁ with
  | zero =>
    intro f₂ node gen path visiting acc h1 h2
    rw [walk_gt by_pk maxd f₂ node gen path visiting acc (by omega)]
    rfl
  | succ a ih =>
    intro f₂ node gen path visiting acc h1 h2
    cases f₂ with
    | zero =>
      rw [walk_gt by_pk maxd (a + 1) node gen path visiting acc (by omega)]
      rfl
    | succ b =>
      simp only [walk]
      by_cases hg : maxd < gen
      · rw [if_pos hg, if_pos hg]
      · rw [if_neg hg, if_neg hg]
        by_cases hv : node ∈ visiting
        · rw [if_pos hv, if_pos hv]
        · rw [if_neg hv, if_neg hv]
          cases hget : Store.get by_pk node with
          | none => simp only [hget]
          | some data =>
            simp only [hget]
            by_cases hlt : gen < maxd
            · rw [if_pos hlt, if_pos hlt]
              by_cases hs : data.sire ≠ ""
              · rw [if_pos hs, if_pos hs,
                  ih b data.sire (gen + 1) (path ++ [node]) (node :: visiting) _
                    (by omega) (by omega)]
                by_cases hdm : data.dam ≠ ""
                · rw [if_pos hdm, if_pos hdm,
                    ih b data.dam (gen + 1) (path ++ [node]) (node :: visiting) _
                      (by omega) (by omega)]
                · rw [if_neg hdm, if_neg hdm]
              · rw [if_neg hs, if_neg hs]
                by_cases hdm : data.dam ≠ ""
                · rw [if_pos hdm, if_pos hdm,
                    ih b data.dam (gen + 1) (path ++ [node]) (node :: visiting) _
                      (by omega) (by omega)]
                · rw [if_neg hdm, if_neg hdm]
            · rw [if_neg hlt, if_neg hlt]

end MakePedigree

namespace MakePedigree

/-- A strictly decreasing measure on parent links: the formal form of
"the reachable parent graph is acyclic". -/
def DecMeasure (by_pk : Store) (mu : String → Nat) : Prop :=
  ∀ p r, Store.get by_pk p = some r →
    (r.sire ≠ "" → mu r.sire < mu p) ∧ (r.dam ≠ "" → mu r.dam < mu p)

/-- On measured stores the claim's recursion is fuel-stable beyond the
measure. -/
theorem depth_of_claim_fuel_stable (by_pk : Store) (mu : String → Nat)
    (hmu : DecMeasure by_pk mu) :
    ∀ f₁ f₂ p V, mu p < f₁ → mu p < f₂ →
      depth_of_claim by_pk f₁ p V = depth_of_claim by_pk f₂ p V := by
  intro f₁
  induction f₁ with
  | zero => intro f₂ p V h1 h2; omega
  | succ a ih =>
    intro f₂ p V h1 h2
    cases f₂ with
    | zero => omega
    | succ b =>
      simp only [depth_of_claim]
      by_cases hv : p ∈ V
      · rw [if_pos hv, if_pos hv]
      · rw [if_neg hv, if_neg hv]
        cases hget : Store.get by_pk p with
        | none => simp only [hget]
        | some data =>
          simp only [hget]
          obtain ⟨hs, hd⟩ := hmu p data hget
          by_cases hsire : data.sire ≠ ""
          · rw [if_pos hsire, if_pos hsire,
              ih b data.sire (p :: V) (by have := hs hsire; omega)
                (by have := hs hsire; omega)]
            by_cases hdam : data.dam ≠ ""
            · rw [if_pos hdam, if_pos hdam,
                ih b data.dam (p :: V) (by have := hd hdam; omega)
                  (by have := hd hdam; omega)]
            · rw [if_neg hdam, if_neg hdam]
          · rw [if_neg hsire, if_neg hsire]
            by_cases hdam : data.dam ≠ ""
            · rw [if_pos hdam, if_pos hdam,
                ih b data.dam (p :: V) (by have := hd hdam; omega)
                  (by have := hd hdam; omega)]
            · rw [if_neg hdam, if_neg hdam]

/-- On measured stores the visiting set is irrelevant as long as it only
holds strictly heavier identifiers (true on every real path). -/
theorem depth_of_claim_visiting_irrel (by_pk : Store) (mu : String → Nat)
    (hmu : DecMeasure by_pk mu) :
    ∀ f p V, (∀ v ∈ V, mu p < mu v) →
      depth_of_claim by_pk f p V = depth_of_claim by_pk f p [] := by
  intro f
  induction f with
  | zero => intro p V hV; rfl
  | succ a ih =>
    intro p V hV
    simp only [depth_of_claim]
    have hpv : p ∉ V := fun h => absurd (hV p h) (lt_irrefl _)
    rw [if_neg hpv, if_neg (List.not_mem_nil p)]
    cases hget : Store.get by_pk p with
    | none => simp only [hget]
    | some data =>
      simp only [hget]
      obtain ⟨hs, hd⟩ := hmu p data hget
      by_cases hsire : data.sire ≠ ""
      · rw [if_pos hsire, if_pos hsire,
          ih data.sire (p :: V) ?s1, ih data.sire [p] ?s2]
        case s1 =>
          intro v hv
          rcases List.mem_cons.mp hv with rfl | hv
          · exact hs hsire
          · exact lt_trans (hs hsire) (hV v hv)
        case s2 =>
          intro v hv
          rcases List.mem_singleton.mp hv with rfl
          exact hs hsire
        by_cases hdam : data.dam ≠ ""
        · rw [if_pos hdam, if_pos hdam,
            ih data.dam (p :: V) ?d1, ih data.dam [p] ?d2]
          case d1 =>
            intro v hv
            rcases List.mem_cons.mp hv with rfl | hv
            · exact hd hdam
            · exact lt_trans (hd hdam) (hV v hv)
          case d2 =>
            intro v hv
            rcases List.mem_singleton.mp hv with rfl
            exact hd hdam
        · rw [if_neg hdam, if_neg hdam]
      · rw [if_neg hsire, if_neg hsire]
        by_cases hdam : data.dam ≠ ""
        · rw [if_pos hdam, if_pos hdam,
            ih data.dam (p :: V) ?d3, ih data.dam [p] ?d4]
          case d3 =>
            intro v hv
            rcases List.mem_cons.mp hv with rfl | hv
            · exact hd hdam
            · exact lt_trans (hd hdam) (hV v hv)
          case d4 =>
            intro v hv
            rcases List.mem_singleton.mp hv with rfl
            exact hd hdam
        · rw [if_neg hdam, if_neg hdam]

/-- The claim's depth value at its canonical fuel. -/
def dclaim (by_pk : Store) (mu : String → Nat) (p : String) : Nat :=
  depth_of_claim by_pk (mu p + 1) p []

/-- The memo invariant: every memoized value is the claim's value. -/
def MemoOK (by_pk : Store) (mu : String → Nat) (memo : List (String × Nat)) : Prop :=
  ∀ k v, memo.lookup k = some v → v = dclaim by_pk mu k

theorem dclaim_of_none (by_pk : Store) (mu : String → Nat) (p : String)
    (hget : Store.get by_pk p = none) : dclaim by_pk mu p = 0 := by
  simp only [dclaim, depth_of_claim]
  rw [if_neg (List.not_mem_nil p)]
  simp only [hget]

/-- One unfolding of the claim's recursion in terms of `dclaim`. -/
theorem dclaim_of_some (by_pk : Store) (mu : String → Nat)
    (hmu : DecMeasure by_pk mu) (p : String) (data : Row)
    (hget : Store.get by_pk p = some data) :
    dclaim by_pk mu p =
      max 0 (max (if data.sire ≠ "" then 1 + dclaim by_pk mu data.sire else 0)
        (if data.dam ≠ "" then 1 + dclaim by_pk mu data.dam else 0)) := by
  obtain ⟨hs, hd⟩ := hmu p data hget
  show depth_of_claim by_pk (mu p + 1) p [] = _
  simp only [depth_of_claim]
  rw [if_neg (List.not_mem_nil p)]
  simp only [hget]
  by_cases hsire : data.sire ≠ ""
  · rw [if_pos hsire, if_pos hsire,
      depth_of_claim_visiting_irrel by_pk mu hmu (mu p) data.sire [p]
        (by intro v hv; rcases List.mem_singleton.mp hv with rfl; exact hs hsire),
      depth_of_claim_fuel_stable by_pk mu hmu (mu p) (mu data.sire + 1) data.sire []
        (hs hsire) (by omega)]
    by_cases hdam : data.dam ≠ ""
    · rw [if_pos hdam, if_pos hdam,
        depth_of_claim_visiting_irrel by_pk mu hmu (mu p) data.dam [p]
          (by intro v hv; rcases List.mem_singleton.mp hv with rfl; exact hd hdam),
        depth_of_claim_fuel_stable by_pk mu hmu (mu p) (mu data.dam + 1) data.dam []
          (hd hdam) (by omega)]
      rfl
    · rw [if_neg hdam, if_neg hdam]
      rfl
  · rw [if_neg hsire, if_neg hsire]
    by_cases hdam : data.dam ≠ ""
    · rw [if_pos hdam, if_pos hdam,
        depth_of_claim_visiting_irrel by_pk mu hmu (mu p) data.dam [p]
          (by intro v hv; rcases List.mem_singleton.mp hv with rfl; exact hd hdam),
        depth_of_claim_fuel_stable by_pk mu hmu (mu p) (mu data.dam + 1) data.dam []
          (hd hdam) (by omega)]
      rfl
    · rw [if_neg hdam, if_neg hdam]

end MakePedigree

namespace MakePedigree

/-- Unfolding of `depth_for` when both parents are present. -/
theorem depth_for_unfold_both (by_pk : Store) (a : Nat) (p : String) (st : DState)
    (data : Row)
    (hlk : st.memo.lookup p = none) (hpv : p ∉ st.visiting)
    (hget : Store.get by_pk p = some data)
    (hsire : data.sire ≠ "") (hdam : data.dam ≠ "") :
    depth_for by_pk (a + 1) p st =
      ((List.foldl Nat.max 0
          [0, 1 + (depth_for by_pk a data.sire ⟨st.memo, p :: st.visiting⟩).1,
           1 + (depth_for by_pk a data.dam
                  (depth_for by_pk a data.sire ⟨st.memo, p :: st.visiting⟩).2).1]),
       ⟨(p, List.foldl Nat.max 0
          [0, 1 + (depth_for by_pk a data.sire ⟨st.memo, p :: st.visiting⟩).1,
           1 + (depth_for by_pk a data.dam
                  (depth_for by_pk a data.sire ⟨st.memo, p :: st.visiting⟩).2).1]) ::
          (depth_for by_pk a data.dam
            (depth_for by_pk a data.sire ⟨st.memo, p :: st.visiting⟩).2).2.memo,
        (depth_for by_pk a data.dam
          (depth_for by_pk a data.sire ⟨st.memo, p :: st.visiting⟩).2).2.visiting.erase p⟩) := by
  simp only [depth_for, hlk, hget, if_neg hpv, if_pos hsire, if_pos hdam]
  rfl

/-- Unfolding of `depth_for` when only the sire link is present. -/
theorem depth_for_unfold_sire (by_pk : Store) (a : Nat) (p : String) (st : DState)
    (data : Row)
    (hlk : st.memo.lookup p = none) (hpv : p ∉ st.visiting)
    (hget : Store.get by_pk p = some data)
    (hsire : data.sire ≠ "") (hdam : ¬ data.dam ≠ "") :
    depth_for by_pk (a + 1) p st =
      ((List.foldl Nat.max 0
          [0, 1 + (depth_for by_pk a data.sire ⟨st.memo, p :: st.visiting⟩).1]),
       ⟨(p, List.foldl Nat.max 0
          [0, 1 + (depth_for by_pk a data.sire ⟨st.memo, p :: st.visiting⟩).1]) ::
          (depth_for by_pk a data.sire ⟨st.memo, p :: st.visiting⟩).2.memo,
        (depth_for by_pk a data.sire
          ⟨st.memo, p :: st.visiting⟩).2.visiting.erase p⟩) := by
  simp only [depth_for, hlk, hget, if_neg hpv, if_pos hsire, if_neg hdam]

/-- Unfolding of `depth_for` when only the dam link is present. -/
theorem depth_for_unfold_dam (by_pk : Store) (a : Nat) (p : String) (st : DState)
    (data : Row)
    (hlk : st.memo.lookup p = none) (hpv : p ∉ st.visiting)
    (hget : Store.get by_pk p = some data)
    (hsire : ¬ data.sire ≠ "") (hdam : data.dam ≠ "") :
    depth_for by_pk (a + 1) p st =
      ((List.foldl Nat.max 0
          [0, 1 + (depth_for by_pk a data.dam ⟨st.memo, p :: st.visiting⟩).1]),
       ⟨(p, List.foldl Nat.max 0
          [0, 1 + (depth_for by_pk a data.dam ⟨st.memo, p :: st.visiting⟩).1]) ::
          (depth_for by_pk a data.dam ⟨st.memo, p :: st.visiting⟩).2.memo,
        (depth_for by_pk a data.dam
          ⟨st.memo, p :: st.visiting⟩).2.visiting.erase p⟩) := by
  simp only [depth_for, hlk, hget, if_neg hpv, if_neg hsire, if_pos hdam]
  rfl

/-- Unfolding of `depth_for` when neither parent link is present. -/
theorem depth_for_unfold_leaf (by_pk : Store) (a : Nat) (p : String) (st : DState)
    (data : Row)
    (hlk : st.memo.lookup p = none) (hpv : p ∉ st.visiting)
    (hget : Store.get by_pk p = some data)
    (hsire : ¬ data.sire ≠ "") (hdam : ¬ data.dam ≠ "") :
    depth_for by_pk (a + 1) p st =
      (0, ⟨(p, 0) :: st.memo, st.visiting⟩) := by
  simp only [depth_for, hlk, hget, if_neg hpv, if_neg hsire, if_neg hdam]
  show (_, (⟨_, (p :: st.visiting).erase p⟩ : DState)) = _
  rw [List.erase_cons_head]
  simp

/-- Unfolding of `depth_for` on an identifier with no record. -/
theorem depth_for_unfold_none (by_pk : Store) (a : Nat) (p : String) (st : DState)
    (hlk : st.memo.lookup p = none) (hpv : p ∉ st.visiting)
    (hget : Store.get by_pk p = none) :
    depth_for by_pk (a + 1) p st = (0, ⟨(p, 0) :: st.memo, st.visiting⟩) := by
  simp only [depth_for, hlk, hget, if_neg hpv]
  show (_, (⟨_, (p :: st.visiting).erase p⟩ : DState)) = _
  rw [List.erase_cons_head]

end MakePedigree

namespace MakePedigree

theorem MemoOK_cons (by_pk : Store) (mu : String → Nat) (p : String) (v : Nat)
    (memo : List (String × Nat)) (hv : v = dclaim by_pk mu p)
    (h : MemoOK by_pk mu memo) : MemoOK by_pk mu ((p, v) :: memo) := by
  intro k w hkw
  by_cases hk : k = p
  · subst hk
    rw [show List.lookup k ((k, v) :: memo) = some v from by simp [List.lookup]] at hkw
    cases hkw
    exact hv
  · rw [show List.lookup k ((p, v) :: memo) = List.lookup k memo from by
      simp [List.lookup, beq_eq_false_iff_ne.mpr hk]] at hkw
    exact h k w hkw

/-- On a measured (acyclic) store, `depth_for` computes exactly the pure
visiting-path recursion of the claim: the memo only ever holds claim
values, and the visiting set is restored on return. -/
theorem depth_for_correct (by_pk : Store) (mu : String → Nat)
    (hmu : DecMeasure by_pk mu) :
    ∀ fuel p st, mu p < fuel → MemoOK by_pk mu st.memo →
      (∀ v ∈ st.visiting, mu p < mu v) →
      (depth_for by_pk fuel p st).1 = dclaim by_pk mu p ∧
      MemoOK by_pk mu (depth_for by_pk fuel p st).2.memo ∧
      (depth_for by_pk fuel p st).2.visiting = st.visiting := by
  intro fuel
  induction fuel with
  | zero => intro p st h1 _ _; omega
  | succ a ih =>
    intro p st h1 hmemo hvis
    cases hlk : st.memo.lookup p with
    | some d =>
      have hres : depth_for by_pk (a + 1) p st = (d, st) := by
        simp only [depth_for, hlk]
      rw [hres]
      exact ⟨hmemo p d hlk, hmemo, rfl⟩
    | none =>
      have hpv : p ∉ st.visiting := fun h => absurd (hvis p h) (lt_irrefl _)
      cases hget : Store.get by_pk p with
      | none =>
        rw [depth_for_unfold_none by_pk a p st hlk hpv hget]
        exact ⟨(dclaim_of_none by_pk mu p hget).symm,
          MemoOK_cons by_pk mu p 0 st.memo (dclaim_of_none by_pk mu p hget).symm hmemo,
          rfl⟩
      | some data =>
        obtain ⟨hs, hd⟩ := hmu p data hget
        by_cases hsire : data.sire ≠ ""
        · have ihs := ih data.sire ⟨st.memo, p :: st.visiting⟩
            (by have := hs hsire; omega) hmemo
            (by
              intro v hv
              rcases List.mem_cons.mp hv with rfl | hv
              · exact hs hsire
              · exact lt_trans (hs hsire) (hvis v hv))
          obtain ⟨ihs1, ihs2, ihs3⟩ := ihs
          by_cases hdam : data.dam ≠ ""
          · have ihd := ih data.dam
              (depth_for by_pk a data.sire ⟨st.memo, p :: st.visiting⟩).2
              (by have := hd hdam; omega) ihs2
              (by
                rw [ihs3]
                intro v hv
                rcases List.mem_cons.mp hv with rfl | hv
                · exact hd hdam
                · exact lt_trans (hd hdam) (hvis v hv))
            obtain ⟨ihd1, ihd2, ihd3⟩ := ihd
            rw [depth_for_unfold_both by_pk a p st data hlk hpv hget hsire hdam]
            have hval : List.foldl Nat.max 0
                [0, 1 + (depth_for by_pk a data.sire ⟨st.memo, p :: st.visiting⟩).1,
                 1 + (depth_for by_pk a data.dam
                   (depth_for by_pk a data.sire ⟨st.memo, p :: st.visiting⟩).2).1] =
                dclaim by_pk mu p := by
              rw [ihs1, ihd1, dclaim_of_some by_pk mu hmu p data hget,
                if_pos hsire, if_pos hdam]
              simp [List.foldl]
            refine ⟨hval, ?_, ?_⟩
            · exact MemoOK_cons by_pk mu p _ _ hval ihd2
            · show _ = st.visiting
              rw [ihd3, ihs3, List.erase_cons_head]
          · rw [depth_for_unfold_sire by_pk a p st data hlk hpv hget hsire hdam]
            have hval : List.foldl Nat.max 0
                [0, 1 + (depth_for by_pk a data.sire ⟨st.memo, p :: st.visiting⟩).1] =
                dclaim by_pk mu p := by
              rw [ihs1, dclaim_of_some by_pk mu hmu p data hget,
                if_pos hsire, if_neg hdam]
              simp [List.foldl]
            refine ⟨hval, ?_, ?_⟩
            · exact MemoOK_cons by_pk mu p _ _ hval ihs2
            · show _ = st.visiting
              rw [ihs3, List.erase_cons_head]
        · by_cases hdam : data.dam ≠ ""
          · have ihd := ih data.dam ⟨st.memo, p :: st.visiting⟩
              (by have := hd hdam; omega) hmemo
              (by
                intro v hv
                rcases List.mem_cons.mp hv with rfl | hv
                · exact hd hdam
                · exact lt_trans (hd hdam) (hvis v hv))
            obtain ⟨ihd1, ihd2, ihd3⟩ := ihd
            rw [depth_for_unfold_dam by_pk a p st data hlk hpv hget hsire hdam]
            have hval : List.foldl Nat.max 0
                [0, 1 + (depth_for by_pk a data.dam ⟨st.memo, p :: st.visiting⟩).1] =
                dclaim by_pk mu p := by
              rw [ihd1, dclaim_of_some by_pk mu hmu p data hget,
                if_neg hsire, if_pos hdam]
              simp [List.foldl]
            refine ⟨hval, ?_, ?_⟩
            · exact MemoOK_cons by_pk mu p _ _ hval ihd2
            · show _ = st.visiting
              rw [ihd3, List.erase_cons_head]
          · rw [depth_for_unfold_leaf by_pk a p st data hlk hpv hget hsire hdam]
            have hval : (0 : Nat) = dclaim by_pk mu p := by
              rw [dclaim_of_some by_pk mu hmu p data hget, if_neg hsire, if_neg hdam]
              simp
            refine ⟨hval, MemoOK_cons by_pk mu p 0 st.memo hval hmemo, rfl⟩

end MakePedigree

namespace Pedigree

/-- The builder stores the given horse on the node it creates. -/
theorem build_node_horse (horses : Horses) (G : Nat) (f : Nat) (horse : Horse)
    (depth : Nat) : (build_node horses G f horse depth).horse = horse := by
  cases f with
  | zero => rfl
  | succ a =>
    simp only [build_node]
    by_cases hd : depth < G - 1
    · rw [if_pos hd]
      rfl
    · rw [if_neg hd]
      rfl

/-- The builder stores the given depth on the node it creates. -/
theorem build_node_depth_eq (horses : Horses) (G : Nat) (f : Nat) (horse : Horse)
    (depth : Nat) : (build_node horses G f horse depth).depth = depth := by
  cases f with
  | zero => rfl
  | succ a =>
    simp only [build_node]
    by_cases hd : depth < G - 1
    · rw [if_pos hd]
      rfl
    · rw [if_neg hd]
      rfl

end Pedigree

/-- C1: for every tree produced by the Tree Builder with generation count
G ≥ 1 and processed by the Layout Assigner from leaf index 0, every node's
span is contiguous with length equal to its subtree's leaf count, leaves
span one unit, every internal node's span is the exact gap-free union of
its children's spans with the sire-side span immediately preceding the
dam-side span, and the root's span covers the full layout extent
`0 .. 2 ^ (G - 1) - 1`. -/
theorem layout_spans_correct (horses : Pedigree.Horses) (key : String) (G : Nat)
    (hG : 1 ≤ G) :
    (∀ n ∈ ((Pedigree.assign_rows G (Pedigree.build_tree horses key G) 0).1).nodes,
      Pedigree.nodeSpanOK n = true) ∧
    ((Pedigree.assign_rows G (Pedigree.build_tree horses key G) 0).1).row_start = 0 ∧
    ((Pedigree.assign_rows G (Pedigree.build_tree horses key G) 0).1).row_end + 1 =
      2 ^ (G - 1) := by
  have hws := Pedigree.build_node_wellShaped horses G G 0 (by omega)
    ((Pedigree.Horses.get horses key).getD Pedigree.UNKNOWN_HORSE)
  have hlc := Pedigree.wellShaped_leafCount G (Pedigree.build_tree horses key G) hws.2
  rw [show (Pedigree.build_tree horses key G).depth = 0 from hws.1, Nat.sub_zero] at hlc
  obtain ⟨h2, hrs, hre, hplc, hok⟩ :=
    Pedigree.assign_rows_spans G (Pedigree.build_tree horses key G) hws.2 0
  refine ⟨hok, hrs, ?_⟩
  rw [hre, hlc]
  omega

/-- Witness for C1 at a concrete input. -/
theorem layout_spans_correct_witness :
    1 ≤ 2 ∧
    ((∀ n ∈ ((Pedigree.assign_rows 2 (Pedigree.build_tree [] ("Z") 2) 0).1).nodes,
      Pedigree.nodeSpanOK n = true) ∧
    ((Pedigree.assign_rows 2 (Pedigree.build_tree [] ("Z") 2) 0).1).row_start = 0 ∧
    ((Pedigree.assign_rows 2 (Pedigree.build_tree [] ("Z") 2) 0).1).row_end + 1 =
      2 ^ (2 - 1)) :=
  ⟨by decide, layout_spans_correct [] ("Z") 2 (by decide)⟩

/-- C8: the Tree Builder places the subject (or the unknown-root stand-in)
at generation 0 and expands only while `depth < G - 1`: every node's depth
stays within `G - 1`, every node at depth `G - 1` is a leaf regardless of
further ancestry in the data, and every node with a child sits strictly
below `G - 1`. -/
theorem builder_generation_bound (horses : Pedigree.Horses) (key : String) (G : Nat)
    (hG : 1 ≤ G) :
    (Pedigree.build_tree horses key G).depth = 0 ∧
    (Pedigree.build_tree horses key G).horse =
      (Pedigree.Horses.get horses key).getD Pedigree.UNKNOWN_HORSE ∧
    (∀ n ∈ (Pedigree.build_tree horses key G).nodes, n.depth ≤ G - 1) ∧
    (∀ n ∈ (Pedigree.build_tree horses key G).nodes, n.depth = G - 1 →
      n.sire = none ∧ n.dam = none) ∧
    (∀ n ∈ (Pedigree.build_tree horses key G).nodes,
      n.sire ≠ none ∨ n.dam ≠ none → n.depth < G - 1) := by
  have hws := Pedigree.build_node_wellShaped horses G G 0 (by omega)
    ((Pedigree.Horses.get horses key).getD Pedigree.UNKNOWN_HORSE)
  refine ⟨hws.1, Pedigree.build_node_horse horses G G _ 0, ?_, ?_, ?_⟩
  · intro n hn
    exact Pedigree.build_node_nodes_depth horses G G 0 (by omega) _ n hn
  · intro n hn hdep
    have hwn := Pedigree.wellShaped_nodes G (Pedigree.build_tree horses key G) hws.2 n hn
    exact Pedigree.wellShaped_at_bound G n hwn (by omega)
  · intro n hn hchild
    have hwn := Pedigree.wellShaped_nodes G (Pedigree.build_tree horses key G) hws.2 n hn
    by_contra hlt
    obtain ⟨hsn, hdn⟩ := Pedigree.wellShaped_at_bound G n hwn hlt
    rcases hchild with h | h
    · exact h hsn
    · exact h hdn

/-- Witness for C8 at a concrete input. -/
theorem builder_generation_bound_witness :
    1 ≤ 3 ∧
    ((Pedigree.build_tree [] ("Z") 3).depth = 0 ∧
    (Pedigree.build_tree [] ("Z") 3).horse =
      (Pedigree.Horses.get [] ("Z")).getD Pedigree.UNKNOWN_HORSE ∧
    (∀ n ∈ (Pedigree.build_tree [] ("Z") 3).nodes, n.depth ≤ 3 - 1) ∧
    (∀ n ∈ (Pedigree.build_tree [] ("Z") 3).nodes, n.depth = 3 - 1 →
      n.sire = none ∧ n.dam = none) ∧
    (∀ n ∈ (Pedigree.build_tree [] ("Z") 3).nodes,
      n.sire ≠ none ∨ n.dam ≠ none → n.depth < 3 - 1)) :=
  ⟨by decide, builder_generation_bound [] ("Z") 3 (by decide)⟩

/-- C9: on a subject with no record the Tree Builder roots the tree at the
distinguished unknown-root individual, which carries a visible label and
is not marked as a placeholder, and whenever the generation count exceeds
1 the root gets two placeholder children at generation 1. -/
theorem unknown_root_for_missing_subject (horses : Pedigree.Horses) (key : String)
    (G : Nat) (hmiss : Pedigree.Horses.get horses key = none) :
    (Pedigree.build_tree horses key G).horse = Pedigree.UNKNOWN_HORSE ∧
    Pedigree.UNKNOWN_HORSE.is_placeholder = false ∧
    Pedigree.UNKNOWN_HORSE.name = ("Unknown") ∧
    (1 < G →
      (Pedigree.build_tree horses key G).sire.map
          (fun n => (n.horse.is_placeholder, n.depth)) = some (true, 1) ∧
      (Pedigree.build_tree horses key G).dam.map
          (fun n => (n.horse.is_placeholder, n.depth)) = some (true, 1)) := by
  have hroot : Pedigree.build_tree horses key G =
      Pedigree.build_node horses G G Pedigree.UNKNOWN_HORSE 0 := by
    rw [Pedigree.build_tree, hmiss]
    rfl
  refine ⟨by rw [hroot, Pedigree.build_node_horse], rfl, rfl, ?_⟩
  intro hG
  obtain ⟨f, rfl⟩ : ∃ f, G = f + 1 := ⟨G - 1, by omega⟩
  rw [hroot]
  simp only [Pedigree.build_node]
  rw [if_pos (by omega : (0 : Nat) < f + 1 - 1)]
  refine ⟨?_, ?_⟩ <;>
    simp [Pedigree.PedigreeNode.sire, Pedigree.PedigreeNode.dam,
      Pedigree.build_node_horse, Pedigree.build_node_depth_eq,
      Pedigree.UNKNOWN_HORSE, Pedigree.placeholder_horse]

/-- Witness for C9 at a concrete input. -/
theorem unknown_root_for_missing_subject_witness :
    Pedigree.Horses.get [] ("Z") = none ∧
    ((Pedigree.build_tree [] ("Z") 3).horse = Pedigree.UNKNOWN_HORSE ∧
    Pedigree.UNKNOWN_HORSE.is_placeholder = false ∧
    Pedigree.UNKNOWN_HORSE.name = ("Unknown") ∧
    (1 < 3 →
      (Pedigree.build_tree [] ("Z") 3).sire.map
          (fun n => (n.horse.is_placeholder, n.depth)) = some (true, 1) ∧
      (Pedigree.build_tree [] ("Z") 3).dam.map
          (fun n => (n.horse.is_placeholder, n.depth)) = some (true, 1))) :=
  ⟨rfl, unknown_root_for_missing_subject [] ("Z") 3 rfl⟩

/-- C10: the built tree is a perfect binary tree: every node strictly
below the bound has both a sire-side and a dam-side child, every node at
the bound has none, and the tree has exactly `2 ^ (G - 1)` leaves no
matter how much ancestry the data holds. -/
theorem builder_perfect_shape (horses : Pedigree.Horses) (key : String) (G : Nat)
    (hG : 1 ≤ G) :
    (∀ n ∈ (Pedigree.build_tree horses key G).nodes,
      (n.depth < G - 1 → n.sire.isSome = true ∧ n.dam.isSome = true) ∧
      (¬ n.depth < G - 1 → n.sire = none ∧ n.dam = none)) ∧
    (Pedigree.build_tree horses key G).leafCount = 2 ^ (G - 1) := by
  have hws := Pedigree.build_node_wellShaped horses G G 0 (by omega)
    ((Pedigree.Horses.get horses key).getD Pedigree.UNKNOWN_HORSE)
  constructor
  · intro n hn
    have hwn := Pedigree.wellShaped_nodes G (Pedigree.build_tree horses key G) hws.2 n hn
    exact ⟨Pedigree.wellShaped_below_bound G n hwn,
      Pedigree.wellShaped_at_bound G n hwn⟩
  · have hlc := Pedigree.wellShaped_leafCount G (Pedigree.build_tree horses key G) hws.2
    rw [hlc, show (Pedigree.build_tree horses key G).depth = 0 from hws.1, Nat.sub_zero]

/-- Witness for C10 at a concrete input. -/
theorem builder_perfect_shape_witness :
    1 ≤ 3 ∧
    ((∀ n ∈ (Pedigree.build_tree [] ("Z") 3).nodes,
      (n.depth < 3 - 1 → n.sire.isSome = true ∧ n.dam.isSome = true) ∧
      (¬ n.depth < 3 - 1 → n.sire = none ∧ n.dam = none)) ∧
    (Pedigree.build_tree [] ("Z") 3).leafCount = 2 ^ (3 - 1)) :=
  ⟨by decide, builder_perfect_shape [] ("Z") 3 (by decide)⟩

/-- C6: on every record store — cyclic parentage included — and every bound
at least 1, the Tree Builder and the Inbreeding Analyzer terminate with a
fully constructed result: the builder's recursion is pinned by the
generation count (any fuel of at least `G` builds the same, well-shaped
tree), the analyzer's walk refuses to re-enter an identifier already on
the current path, and the walk's recursion is pinned by the generation
bound (its result is fuel-stable). -/
theorem cyclic_input_terminates
    (horses : Pedigree.Horses) (by_pk : MakePedigree.Store) (key : String)
    (G maxd f f₄ f₁ f₂ gen₁ gen₂ : Nat) (node₁ node₂ : String)
    (path₁ path₂ visiting₁ visiting₂ : List String)
    (acc₁ acc₂ : List MakePedigree.Occ)
    (hG : 1 ≤ G) (_hmaxd : 1 ≤ maxd) (hf : G ≤ f) (hv : node₁ ∈ visiting₁)
    (hf₁ : maxd + 1 - gen₂ ≤ f₁) (hf₂ : maxd + 1 - gen₂ ≤ f₂) :
    Pedigree.build_node horses G f
        ((Pedigree.Horses.get horses key).getD Pedigree.UNKNOWN_HORSE) 0 =
      Pedigree.build_tree horses key G ∧
    Pedigree.wellShaped G (Pedigree.build_tree horses key G) = true ∧
    MakePedigree.walk by_pk maxd f₄ node₁ gen₁ path₁ visiting₁ acc₁ = acc₁ ∧
    MakePedigree.walk by_pk maxd f₁ node₂ gen₂ path₂ visiting₂ acc₂ =
      MakePedigree.walk by_pk maxd f₂ node₂ gen₂ path₂ visiting₂ acc₂ := by
  refine ⟨?_, ?_, ?_, ?_⟩
  · exact Pedigree.build_node_fuel_stable horses G f G _ 0 (by omega) (by omega)
  · exact (Pedigree.build_node_wellShaped horses G G 0 (by omega) _).2
  · exact MakePedigree.walk_visiting by_pk maxd f₄ node₁ gen₁ path₁ visiting₁ acc₁ hv
  · exact MakePedigree.walk_fuel_stable by_pk maxd f₁ f₂ node₂ gen₂ path₂
      visiting₂ acc₂ hf₁ hf₂

/-- A store whose only record lists itself as its own sire. -/
def horsesSelfCycle : Pedigree.Horses :=
  [("X", ⟨"X", some ("X"), none, "", "", "", "", "", "X", false⟩)]

/-- The same self-cycle as seen by the inbreeding analyzer. -/
def storeSelfCycle : MakePedigree.Store := [("X", ⟨"X", ""⟩)]

/-- Witness for C6 on the self-cycle store. -/
theorem cyclic_input_terminates_witness :
    1 ≤ 3 ∧ 3 ≤ 5 ∧ ("X") ∈ [("X")] ∧ 3 + 1 - 1 ≤ 4 ∧ 3 + 1 - 1 ≤ 9 ∧
    (Pedigree.build_node horsesSelfCycle 3 5
        ((Pedigree.Horses.get horsesSelfCycle ("X")).getD Pedigree.UNKNOWN_HORSE) 0 =
      Pedigree.build_tree horsesSelfCycle ("X") 3 ∧
    Pedigree.wellShaped 3 (Pedigree.build_tree horsesSelfCycle ("X") 3) = true ∧
    MakePedigree.walk storeSelfCycle 3 7 ("X") 2 [] [("X")] [] = [] ∧
    MakePedigree.walk storeSelfCycle 3 4 ("X") 1 [] [] [] =
      MakePedigree.walk storeSelfCycle 3 9 ("X") 1 [] [] []) :=
  ⟨by decide, by decide, by decide, by decide, by decide,
   cyclic_input_terminates horsesSelfCycle storeSelfCycle ("X") 3 3 5 7 4 9 2 1
     ("X") ("X") [] [] [("X")] [] [] []
     (by decide) (by decide) (by decide) (by decide) (by decide) (by decide)⟩

/-- C2: the full inbreeding map contains exactly the identifiers recorded
at least twice by the walk, and maps each to
`percentage = 100 × Σ 0.5 ^ generation` over all its recorded
occurrences. -/
theorem inbreeding_map_exact (by_pk : MakePedigree.Store) (pk : String) (maxd : Nat)
    (a : String) :
    (((MakePedigree.inbred_list (MakePedigree.occurrences_of pk by_pk maxd)).lookup a).isSome
        = true ↔
      2 ≤ (MakePedigree.occsFor (MakePedigree.occurrences_of pk by_pk maxd) a).length) ∧
    ∀ e, (MakePedigree.inbred_list (MakePedigree.occurrences_of pk by_pk maxd)).lookup a
        = some e →
      e.percentage =
        100 * ((MakePedigree.occsFor (MakePedigree.occurrences_of pk by_pk maxd) a).map
          (fun o => ((1 : ℚ) / 2) ^ o.gen)).sum := by
  rw [MakePedigree.lookup_inbred_list]
  by_cases hc : a ∈ MakePedigree.dictKeys (MakePedigree.occurrences_of pk by_pk maxd) ∧
      2 ≤ (MakePedigree.occsFor (MakePedigree.occurrences_of pk by_pk maxd) a).length
  · rw [if_pos hc]
    refine ⟨by simp only [Option.isSome_some, true_iff]; exact hc.2, ?_⟩
    intro e he
    cases he
    show (MakePedigree.entryFor _ a).percentage = _
    simp only [MakePedigree.entryFor]
    rw [List.map_map, mul_comm]
    rfl
  · rw [if_neg hc]
    constructor
    · simp only [Option.isSome_none, Bool.false_eq_true, false_iff]
      intro h2
      exact hc ⟨(MakePedigree.mem_dictKeys _ a).mpr
        ((MakePedigree.occsFor_pos _ a).mp (by omega)), h2⟩
    · intro e he
      cases he

/-- A store in which ancestor `G` is recorded once at generation 2 and once
at generation 3. -/
def storeGen23 : MakePedigree.Store :=
  [("S", ⟨"A", "C"⟩), ("A", ⟨"B", ""⟩), ("B", ⟨"G", ""⟩), ("C", ⟨"G", ""⟩),
   ("G", ⟨"", ""⟩)]

/-- Witness for C2 at a concrete input. -/
theorem inbreeding_map_exact_witness :
    (((MakePedigree.inbred_list (MakePedigree.occurrences_of ("S") storeGen23 3)).lookup
        ("G")).isSome = true ↔
      2 ≤ (MakePedigree.occsFor (MakePedigree.occurrences_of ("S") storeGen23 3) ("G")).length) ∧
    ∀ e, (MakePedigree.inbred_list (MakePedigree.occurrences_of ("S") storeGen23 3)).lookup
        ("G") = some e →
      e.percentage =
        100 * ((MakePedigree.occsFor (MakePedigree.occurrences_of ("S") storeGen23 3) ("G")).map
          (fun o => ((1 : ℚ) / 2) ^ o.gen)).sum :=
  inbreeding_map_exact storeGen23 ("S") 3 ("G")

/-- C3 counterexample: on `storeGen23` the ancestor `G` is recorded exactly
at generations 3 and 2, and the computed percentage is
`100 × (0.5 ^ 2 + 0.5 ^ 3) = 37.5 = 75 / 2`, not `18.75 = 75 / 4` as the
claim asserts. -/
theorem inbreeding_two_three_counterexample :
    ((MakePedigree.occsFor (MakePedigree.occurrences_of ("S") storeGen23 3) ("G")).map
        (fun o => o.gen)) = [3, 2] ∧
    (MakePedigree.entryFor (MakePedigree.occurrences_of ("S") storeGen23 3) ("G")).percentage
        = 75 / 2 ∧
    ¬ (MakePedigree.entryFor (MakePedigree.occurrences_of ("S") storeGen23 3) ("G")).percentage
        = 75 / 4 := by
  have hg : (MakePedigree.occsFor (MakePedigree.occurrences_of ("S") storeGen23 3) ("G")).map
      (fun o => o.gen) = [3, 2] := by decide
  have hp : (MakePedigree.entryFor (MakePedigree.occurrences_of ("S") storeGen23 3)
      ("G")).percentage = 75 / 2 := by
    simp only [MakePedigree.entryFor, hg]
    norm_num
  refine ⟨hg, hp, ?_⟩
  rw [hp]
  norm_num

/-- C3 amended: an ancestor recorded exactly twice, once at generation 2
and once at generation 3, enters the full map with computed percentage
`100 × (0.5 ^ 2 + 0.5 ^ 3) = 37.5`. -/
theorem inbreeding_two_three_percentage (by_pk : MakePedigree.Store) (pk : String)
    (maxd : Nat) (a : String)
    (hperm : ((MakePedigree.occsFor (MakePedigree.occurrences_of pk by_pk maxd) a).map
      (fun o => o.gen)).Perm [2, 3]) :
    (MakePedigree.inbred_list (MakePedigree.occurrences_of pk by_pk maxd)).lookup a =
      some (MakePedigree.entryFor (MakePedigree.occurrences_of pk by_pk maxd) a) ∧
    (MakePedigree.entryFor (MakePedigree.occurrences_of pk by_pk maxd) a).percentage
      = 75 / 2 := by
  have hlen : 2 ≤ (MakePedigree.occsFor (MakePedigree.occurrences_of pk by_pk maxd) a).length := by
    have h := hperm.length_eq
    rw [List.length_map] at h
    simp only [List.length_cons, List.length_nil] at h
    omega
  constructor
  · rw [MakePedigree.lookup_inbred_list,
      if_pos ⟨(MakePedigree.mem_dictKeys _ a).mpr
        ((MakePedigree.occsFor_pos _ a).mp (by omega)), hlen⟩]
  · simp only [MakePedigree.entryFor]
    have hsum : (((MakePedigree.occsFor (MakePedigree.occurrences_of pk by_pk maxd) a).map
        (fun o => o.gen)).map (fun g => ((1 : ℚ) / 2) ^ g)).sum =
        (([2, 3] : List Nat).map (fun g => ((1 : ℚ) / 2) ^ g)).sum :=
      (hperm.map (fun g => ((1 : ℚ) / 2) ^ g)).sum_eq
    rw [hsum]
    norm_num

/-- Witness for the amended C3 at a concrete input. -/
theorem inbreeding_two_three_percentage_witness :
    ((MakePedigree.occsFor (MakePedigree.occurrences_of ("S") storeGen23 3) ("G")).map
      (fun o => o.gen)).Perm [2, 3] ∧
    ((MakePedigree.inbred_list (MakePedigree.occurrences_of ("S") storeGen23 3)).lookup ("G") =
      some (MakePedigree.entryFor (MakePedigree.occurrences_of ("S") storeGen23 3) ("G")) ∧
    (MakePedigree.entryFor (MakePedigree.occurrences_of ("S") storeGen23 3) ("G")).percentage
      = 75 / 2) :=
  ⟨by decide, inbreeding_two_three_percentage storeGen23 ("S") 3 ("G") (by decide)⟩

/-- The C4 scenario: subject `S` with sire `F` and dam `M`, where `F` and
`M` share the common ancestor `G` at generation 2 on both sides, and no
other ancestor is shared. -/
def storeShared : MakePedigreeImage.Store :=
  [("S", ⟨"F", "M"⟩), ("F", ⟨"G", ""⟩), ("M", ⟨"G", ""⟩), ("G", ⟨"", ""⟩)]

/-- C4 counterexample: in the shared-grandparent scenario the computed
percentage is `100 × (0.5 ^ 2 + 0.5 ^ 2) = 50.0`, not `25.0` as the claim
asserts. -/
theorem shared_grandparent_counterexample :
    (MakePedigreeImage.entryFor (MakePedigreeImage.occurrences_of ("S") storeShared 3)
        ("G")).percentage = 50 ∧
    ¬ (MakePedigreeImage.entryFor (MakePedigreeImage.occurrences_of ("S") storeShared 3)
        ("G")).percentage = 25 := by
  have hg : (MakePedigreeImage.occsFor
      (MakePedigreeImage.occurrences_of ("S") storeShared 3) ("G")).map
      (fun o => o.gen) = [2, 2] := by decide
  have hp : (MakePedigreeImage.entryFor (MakePedigreeImage.occurrences_of ("S") storeShared 3)
      ("G")).percentage = 50 := by
    simp only [MakePedigreeImage.entryFor, hg]
    norm_num
  refine ⟨hp, ?_⟩
  rw [hp]
  norm_num

/-- C4 amended: with bound 3 the inbreeding report of the scenario store
contains `G` with generation list `[2, 2]`, percentage `50.0`, branch
classification `"both"`, and `G` is not subsumed. -/
theorem shared_grandparent_report :
    (MakePedigreeImage.inbred_list (MakePedigreeImage.occurrences_of ("S") storeShared 3)).lookup
        ("G") =
      some (MakePedigreeImage.entryFor (MakePedigreeImage.occurrences_of ("S") storeShared 3)
        ("G")) ∧
    (MakePedigreeImage.entryFor (MakePedigreeImage.occurrences_of ("S") storeShared 3)
        ("G")).gens = [2, 2] ∧
    (MakePedigreeImage.entryFor (MakePedigreeImage.occurrences_of ("S") storeShared 3)
        ("G")).percentage = 50 ∧
    (MakePedigreeImage.inbred_types_list
        (MakePedigreeImage.occurrences_of ("S") storeShared 3)).lookup ("G") = some ("both") ∧
    ("G") ∉ MakePedigreeImage.subsumed_list
        (MakePedigreeImage.occurrences_of ("S") storeShared 3) := by
  have hg : (MakePedigreeImage.occsFor
      (MakePedigreeImage.occurrences_of ("S") storeShared 3) ("G")).map
      (fun o => o.gen) = [2, 2] := by decide
  refine ⟨rfl, by decide, ?_, by decide, by decide⟩
  simp only [MakePedigreeImage.entryFor, hg]
  norm_num

/-- C5: an ancestor is placed in the subsumed set exactly when some other
repeated ancestor appears on every one of its recorded paths at or before
its own position; a subsumed ancestor stays in the full map but is absent
from the final non-subsumed report. -/
theorem subsumed_iff (by_pk : MakePedigree.Store) (pk : String) (maxd : Nat)
    (a : String) :
    (a ∈ MakePedigree.subsumed_list (MakePedigree.occurrences_of pk by_pk maxd) ↔
      a ∈ MakePedigree.candidates (MakePedigree.occurrences_of pk by_pk maxd) ∧
      ∃ b ∈ MakePedigree.candidates (MakePedigree.occurrences_of pk by_pk maxd), b ≠ a ∧
        ∀ p ∈ (MakePedigree.entryFor (MakePedigree.occurrences_of pk by_pk maxd) a).paths,
          b ∈ p ∧ p.indexOf b ≤ p.indexOf a) ∧
    (a ∈ MakePedigree.subsumed_list (MakePedigree.occurrences_of pk by_pk maxd) →
      ((MakePedigree.inbred_list (MakePedigree.occurrences_of pk by_pk maxd)).lookup
          a).isSome = true ∧
      a ∉ MakePedigree.inbred_pks (MakePedigree.occurrences_of pk by_pk maxd)) := by
  constructor
  · rw [MakePedigree.subsumed_list, List.mem_filter]
    constructor
    · rintro ⟨hmem, hpred⟩
      refine ⟨hmem, ?_⟩
      rw [List.any_eq_true] at hpred
      obtain ⟨b, hb, hcond⟩ := hpred
      rw [Bool.and_eq_true] at hcond
      have hne : b ≠ a := by simpa using hcond.1
      refine ⟨b, hb, hne, ?_⟩
      intro p hp
      have hall := hcond.2
      rw [MakePedigree.subsumes_all, List.all_eq_true] at hall
      have h := hall p hp
      rw [Bool.and_eq_true, decide_eq_true_eq] at h
      exact ⟨by simpa using h.1, h.2⟩
    · rintro ⟨hmem, b, hb, hne, hpaths⟩
      refine ⟨hmem, ?_⟩
      rw [List.any_eq_true]
      refine ⟨b, hb, ?_⟩
      rw [Bool.and_eq_true]
      refine ⟨by simpa using hne, ?_⟩
      rw [MakePedigree.subsumes_all, List.all_eq_true]
      intro p hp
      rw [Bool.and_eq_true, decide_eq_true_eq]
      exact ⟨by simpa using (hpaths p hp).1, (hpaths p hp).2⟩
  · intro hsub
    have hmem : a ∈ MakePedigree.candidates (MakePedigree.occurrences_of pk by_pk maxd) :=
      (List.mem_filter.mp (by rwa [MakePedigree.subsumed_list] at hsub)).1
    constructor
    · have h2 := (MakePedigree.mem_candidates _ a).mp hmem
      rw [MakePedigree.lookup_inbred_list,
        if_pos ⟨(MakePedigree.mem_dictKeys _ a).mpr
          ((MakePedigree.occsFor_pos _ a).mp (by omega)), h2⟩]
      rfl
    · intro hin
      rw [MakePedigree.inbred_pks, List.mem_filter] at hin
      have hnot := hin.2
      rw [Bool.not_eq_true'] at hnot
      have hcont : (MakePedigree.subsumed_list
          (MakePedigree.occurrences_of pk by_pk maxd)).contains a = true :=
        List.elem_eq_true_of_mem hsub
      rw [hnot] at hcont
      exact Bool.false_ne_true hcont

/-- A store where every recorded path to `H` passes through the shallower
repeated ancestor `G`: `H` is subsumed. -/
def storeSub : MakePedigree.Store :=
  [("S", ⟨"F", "M"⟩), ("F", ⟨"G", ""⟩), ("M", ⟨"G", ""⟩), ("G", ⟨"H", ""⟩),
   ("H", ⟨"", ""⟩)]

/-- Witness for C5 at a concrete input. -/
theorem subsumed_iff_witness :
    (("H") ∈ MakePedigree.subsumed_list (MakePedigree.occurrences_of ("S") storeSub 3) ↔
      ("H") ∈ MakePedigree.candidates (MakePedigree.occurrences_of ("S") storeSub 3) ∧
      ∃ b ∈ MakePedigree.candidates (MakePedigree.occurrences_of ("S") storeSub 3),
        b ≠ ("H") ∧
        ∀ p ∈ (MakePedigree.entryFor (MakePedigree.occurrences_of ("S") storeSub 3)
            ("H")).paths,
          b ∈ p ∧ p.indexOf b ≤ p.indexOf ("H")) ∧
    (("H") ∈ MakePedigree.subsumed_list (MakePedigree.occurrences_of ("S") storeSub 3) →
      ((MakePedigree.inbred_list (MakePedigree.occurrences_of ("S") storeSub 3)).lookup
          ("H")).isSome = true ∧
      ("H") ∉ MakePedigree.inbred_pks (MakePedigree.occurrences_of ("S") storeSub 3)) :=
  subsumed_iff storeSub ("S") 3 ("H")

/-- A cyclic diamond on which memoization changes the resolver's answer:
`X`'s parents `A` and `B` share the ancestor `C`, and `C`'s sire link
points back to `A`. -/
def storeMemoCycle : MakePedigree.Store :=
  [("X", ⟨"A", "B"⟩), ("A", ⟨"C", ""⟩), ("B", ⟨"C", ""⟩), ("C", ⟨"A", ""⟩)]

/-- C7 counterexample: on the cyclic diamond the memoized Depth Resolver
returns 3 at `X`, while the claim's pure visiting-path recursion
`max(0, 1 + depth(sire), 1 + depth(dam))` gives 4: the memo computed for
`C` under the visiting context of `A` is reused under the context of `B`. -/
theorem depth_resolver_counterexample :
    MakePedigree.compute_max_depth ("X") storeMemoCycle = 3 ∧
    MakePedigree.max_depth_of_claim ("X") storeMemoCycle = 4 ∧
    MakePedigree.compute_max_depth ("X") storeMemoCycle ≠
      MakePedigree.max_depth_of_claim ("X") storeMemoCycle :=
  ⟨by decide, by decide, by decide⟩

/-- C7 amended: on stores whose parent graph is acyclic — admitting a
strictly decreasing measure bounded by the store size — the Depth Resolver
returns exactly the claim's `max(0, 1 + depth(sire), 1 + depth(dam))`
visiting-path recursion; an identifier with no backing record resolves to
depth 0, and a record with both parent links absent resolves to depth 0. -/
theorem depth_resolver_acyclic (by_pk : MakePedigree.Store) (mu : String → Nat)
    (pk : String) (hmu : MakePedigree.DecMeasure by_pk mu)
    (hb : ∀ p, mu p ≤ by_pk.length) :
    MakePedigree.compute_max_depth pk by_pk =
      MakePedigree.max_depth_of_claim pk by_pk ∧
    (∀ q, MakePedigree.Store.get by_pk q = none →
      MakePedigree.compute_max_depth q by_pk = 0) ∧
    (∀ q r, MakePedigree.Store.get by_pk q = some r → r.sire = "" → r.dam = "" →
      MakePedigree.compute_max_depth q by_pk = 0) := by
  refine ⟨?_, ?_, ?_⟩
  · have hcorrect := MakePedigree.depth_for_correct by_pk mu hmu (by_pk.length + 2) pk
      ⟨[], []⟩ (by have := hb pk; omega)
      (by intro k v h; simp at h)
      (by intro v hv; exact absurd hv (List.not_mem_nil v))
    show (MakePedigree.depth_for by_pk (by_pk.length + 2) pk ⟨[], []⟩).1 = _
    rw [hcorrect.1]
    show MakePedigree.depth_of_claim by_pk (mu pk + 1) pk [] =
      MakePedigree.depth_of_claim by_pk (by_pk.length + 2) pk []
    exact MakePedigree.depth_of_claim_fuel_stable by_pk mu hmu (mu pk + 1)
      (by_pk.length + 2) pk [] (by omega) (by have := hb pk; omega)
  · intro q hq
    show (MakePedigree.depth_for by_pk (by_pk.length + 1 + 1) q ⟨[], []⟩).1 = 0
    rw [MakePedigree.depth_for_unfold_none by_pk (by_pk.length + 1) q ⟨[], []⟩ rfl
      (List.not_mem_nil q) hq]
  · intro q r hq hs hd
    show (MakePedigree.depth_for by_pk (by_pk.length + 1 + 1) q ⟨[], []⟩).1 = 0
    rw [MakePedigree.depth_for_unfold_leaf by_pk (by_pk.length + 1) q ⟨[], []⟩ r rfl
      (List.not_mem_nil q) hq (by simp [hs]) (by simp [hd])]

/-- A two-record acyclic chain `P → Q`. -/
def storeChain : MakePedigree.Store := [("P", ⟨"Q", ""⟩), ("Q", ⟨"", ""⟩)]

/-- A strictly decreasing parent measure for `storeChain`. -/
def muChain : String → Nat := fun p => if p = ("P") then 1 else 0

theorem muChain_dec : MakePedigree.DecMeasure storeChain muChain := by
  intro p r h
  by_cases hp : p = ("P")
  · subst hp
    rw [show MakePedigree.Store.get storeChain ("P") =
      some (⟨"Q", ""⟩ : MakePedigree.Row) from rfl] at h
    cases h
    constructor
    · intro _
      decide
    · intro hd
      exact (hd rfl).elim
  · by_cases hq : p = ("Q")
    · subst hq
      rw [show MakePedigree.Store.get storeChain ("Q") =
        some (⟨"", ""⟩ : MakePedigree.Row) from rfl] at h
      cases h
      constructor
      · intro hx
        exact (hx rfl).elim
      · intro hx
        exact (hx rfl).elim
    · have hnone : MakePedigree.Store.get storeChain p = none := by
        simp [MakePedigree.Store.get, List.lookup,
          beq_eq_false_iff_ne.mpr hp, beq_eq_false_iff_ne.mpr hq]
      rw [hnone] at h
      cases h

theorem muChain_bound : ∀ p, muChain p ≤ storeChain.length := by
  intro p
  by_cases hp : p = ("P") <;> simp [muChain, hp, storeChain]

/-- Witness for the amended C7 on the acyclic chain store. -/
theorem depth_resolver_acyclic_witness :
    MakePedigree.DecMeasure storeChain muChain ∧
    (∀ p, muChain p ≤ storeChain.length) ∧
    (MakePedigree.compute_max_depth ("P") storeChain =
      MakePedigree.max_depth_of_claim ("P") storeChain ∧
    (∀ q, MakePedigree.Store.get storeChain q = none →
      MakePedigree.compute_max_depth q storeChain = 0) ∧
    (∀ q r, MakePedigree.Store.get storeChain q = some r → r.sire = "" → r.dam = "" →
      MakePedigree.compute_max_depth q storeChain = 0)) :=
  ⟨muChain_dec, muChain_bound,
   depth_resolver_acyclic storeChain muChain ("P") muChain_dec muChain_bound⟩
